import Mathlib

/-!
Shallow embedding of `src/scripts/detect_holds.py` (the hold-detection
pipeline): retry logic of `call_api`, the tiling bounds, the
`deduplicate_predictions` pass and the result-assembly loop of
`detect_holds`.  Python floats are modelled as exact rationals; Python's
`round(v, 2)` is modelled as rounding to the nearest multiple of `1/100`
(`round2`), and `int(...)` on a nonnegative value as the floor.  The
`dominant_color` sampling reads the image buffer and is outside the
modelled fragment; the geometric fields of the emitted records are
modelled in full.
-/

namespace DetectHolds

/-- Python `round(v, 2)`: round to the nearest multiple of 1/100. -/
def round2 (q : ℚ) : ℚ := (round (q * 100) : ℚ) / 100

/-- Python `round(v, 3)`: round to the nearest multiple of 1/1000. -/
def round3 (q : ℚ) : ℚ := (round (q * 1000) : ℚ) / 1000

/-- Python `int(q)` : truncation toward zero. -/
def pyInt (q : ℚ) : ℤ := if 0 ≤ q then ⌊q⌋ else -⌊-q⌋

/-- A 2-D point, one entry of a prediction's `"points"` list. -/
structure Point where
  x : ℚ
  y : ℚ
deriving DecidableEq, Repr

/-- A raw prediction dictionary as returned by the service.  `points = some l`
models the key `"points"` being present with value `l`; the numeric fields
model `pred.get("x", 0)`, `pred.get("width", 0)`, `pred.get("confidence", 0)`
and `pred.get("class", "hold")` with the dictionary defaults already
applied, which is faithful because the script only ever reads them through
`.get` with those defaults. -/
structure Prediction where
  points : Option (List Point)
  x : ℚ
  y : ℚ
  width : ℚ
  height : ℚ
  confidence : ℚ
  cls : String
deriving DecidableEq, Repr

/-- Center of a prediction as computed in `deduplicate_predictions`:
mean of the polygon points when `"points"` is present, else the stored
box center `(pred.get("x",0), pred.get("y",0))`. -/
def center (p : Prediction) : ℚ × ℚ :=
  match p.points with
  | some pts => ((pts.map Point.x).sum / pts.length, (pts.map Point.y).sum / pts.length)
  | none => (p.x, p.y)

/-- Squared Euclidean distance between two centers. -/
def sqDist (a b : ℚ × ℚ) : ℚ := (a.1 - b.1) ^ 2 + (a.2 - b.2) ^ 2

/-- The test `dist < threshold` of the script, with
`dist = sqrt (sqDist a b) ≥ 0`: equivalent to `0 < t ∧ sqDist a b < t^2`. -/
def isClose (a b : ℚ × ℚ) (t : ℚ) : Bool :=
  decide (0 < t) && decide (sqDist a b < t ^ 2)

/-- The filter `not ("points" in p and len(p["points"]) == 0)` applied at the
top of `deduplicate_predictions`. -/
def validGeom (p : Prediction) : Bool :=
  !(p.points.isSome && (p.points.getD []).length == 0)

/-- Inner loop `for j in range(i+1, n)` of `deduplicate_predictions`:
skips already-removed `j`, marks the lower-confidence member of a close
pair (ties mark `j`), and stops (Python `break`) as soon as `i` itself is
marked. -/
def dedupInner (cs : List (ℚ × ℚ)) (confs : List ℚ) (t : ℚ) (i : Nat) :
    List Nat → List Bool → List Bool
  | [], keep => keep
  | j :: js, keep =>
    if keep.getD j true = false then
      dedupInner cs confs t i js keep
    else if isClose (cs.getD i (0, 0)) (cs.getD j (0, 0)) t then
      if confs.getD j 0 ≤ confs.getD i 0 then
        dedupInner cs confs t i js (keep.set j false)
      else
        keep.set i false
    else
      dedupInner cs confs t i js keep

/-- Outer loop `for i in range(n)` of `deduplicate_predictions`: skips an
`i` that is already removed, otherwise runs the inner sweep over
`range(i+1, n)`. -/
def dedupOuter (cs : List (ℚ × ℚ)) (confs : List ℚ) (t : ℚ) :
    List Nat → List Bool → List Bool
  | [], keep => keep
  | i :: rest, keep =>
    if keep.getD i true = false then
      dedupOuter cs confs t rest keep
    else
      dedupOuter cs confs t rest
        (dedupInner cs confs t i (List.range' (i + 1) (cs.length - (i + 1))) keep)

/-- The comprehension `[p for p, k in zip(predictions, keep) if k]`. -/
def applyKeep {α : Type} : List α → List Bool → List α
  | [], _ => []
  | _, [] => []
  | p :: ps, k :: ks => if k then p :: applyKeep ps ks else applyKeep ps ks

/-- The function `deduplicate_predictions(predictions, threshold)` of the script. -/
def deduplicate_predictions (preds : List Prediction) (t : ℚ) : List Prediction :=
  let ps := preds.filter validGeom
  let cs := ps.map center
  let confs := ps.map Prediction.confidence
  let keep := dedupOuter cs confs t (List.range ps.length) (List.replicate ps.length true)
  applyKeep ps keep

/-! ## Detection client (`call_api`) -/

/-- One HTTP response of the mocked service: status code, decoded
`predictions` payload (read only on status 200) and body text (read only
in the error message). -/
structure ApiResponse where
  status : Nat
  predictions : List Prediction
  text : String

/-- Outcome of `call_api`: the returned prediction list, or the message of
the raised `Exception`. -/
inductive ApiOutcome where
  | ok : List Prediction → ApiOutcome
  | raised : String → ApiOutcome
deriving DecidableEq, Repr

/-- Result of a `call_api` run together with the backoff waits (seconds)
performed, in order. -/
structure ApiRun where
  outcome : ApiOutcome
  waits : List Nat
deriving DecidableEq, Repr

/-- The message `f"API error: {status} - {text}"`. -/
def apiErrorMsg (status : Nat) (text : String) : String :=
  "API error: " ++ toString status ++ " - " ++ text

/-- The `for attempt in range(max_retries)` loop of `call_api`; `respond`
gives the response of attempt number `attempt` (0-based).  The final
`return []` after the loop is kept, faithfully to the source, although the
loop body always returns or raises. -/
def callApiLoop (respond : Nat → ApiResponse) (maxRetries attempt : Nat)
    (waits : List Nat) : ApiRun :=
  if h : attempt < maxRetries then
    let r := respond attempt
    if r.status = 200 then
      ⟨.ok r.predictions, waits⟩
    else if 500 ≤ r.status ∧ attempt < maxRetries - 1 then
      callApiLoop respond maxRetries (attempt + 1) (waits ++ [2 ^ attempt])
    else
      ⟨.raised (apiErrorMsg r.status r.text), waits⟩
  else
    ⟨.ok [], waits⟩
termination_by maxRetries - attempt
decreasing_by omega

/-- The function `call_api(image, api_key, confidence, max_retries=3)`, abstracted over
the sequence of service responses. -/
def call_api (respond : Nat → ApiResponse) (maxRetries : Nat := 3) : ApiRun :=
  callApiLoop respond maxRetries 0 []

/-! ## Tiler -/

/-- The quantity `tile_width = width // tile_cols` with the script's fixed `tile_cols = 3`
(identical formula vertically). -/
def tileW (width : Nat) : Nat := width / 3

/-- The quantity `overlap_x = int(tile_width * 0.3)`; at the dimensions used by the
claims (`tile_width = 100`) the float product is exactly 30.0, so the
rational formula agrees with the script. -/
def overlapX (width : Nat) : Nat := tileW width * 3 / 10

/-- The bound `x1 = max(0, col * tile_width - overlap_x)` (truncated subtraction on
ℕ is exactly the clamp at 0). -/
def tileX1 (width c : Nat) : Nat := c * tileW width - overlapX width

/-- The bound `x2 = min(width, (col + 1) * tile_width + overlap_x)`. -/
def tileX2 (width c : Nat) : Nat := min width ((c + 1) * tileW width + overlapX width)

/-- Pixel column `x` belongs to the tile of grid column `c`
(the slice `image[y1:y2, x1:x2]` contains columns `x1 ≤ x < x2`). -/
def inTileX (width c x : Nat) : Prop := tileX1 width c ≤ x ∧ x < tileX2 width c

instance (width c x : Nat) : Decidable (inTileX width c x) := by
  unfold inTileX; infer_instance

/-- Pixel `(x, y)` belongs to the tile of grid cell `(r, c)`. -/
def inTile (width hgt r c x y : Nat) : Prop := inTileX width c x ∧ inTileX hgt r y

instance (width hgt r c x y : Nat) : Decidable (inTile width hgt r c x y) := by
  unfold inTile; infer_instance

/-! ## Result assembler -/

/-- The percentage `(v / dim) * 100`. -/
def pct (v dim : ℚ) : ℚ := v / dim * 100

/-- A final output record.  The `dominant_color` field is omitted: its
computation reads the image buffer, outside the modelled fragment; all
geometric fields are modelled. -/
structure Hold where
  polygon : List Point
  centerPt : Point
  confidence : ℚ
  cls : String
deriving DecidableEq, Repr

/-- One iteration of the `for pred in predictions` assembly loop of
`detect_holds`: the confidence filter, polygon/box geometry conversion to
percentages and the center computation; `none` models Python `continue`. -/
def assembleOne (wdt hgt thr : ℚ) (pred : Prediction) : Option Hold :=
  if pred.confidence < thr then none
  else
    match pred.points with
    | some pts =>
      let polygon := pts.map fun p =>
        (⟨round2 (pct p.x wdt), round2 (pct p.y hgt)⟩ : Point)
      if polygon.length = 0 then none
      else
        let cx := (polygon.map Point.x).sum / polygon.length
        let cy := (polygon.map Point.y).sum / polygon.length
        some ⟨polygon, ⟨round2 cx, round2 cy⟩, round3 pred.confidence, pred.cls⟩
    | none =>
      let bw := pred.width
      let bh := pred.height
      let polygon : List Point :=
        [⟨round2 (pct (pred.x - bw / 2) wdt), round2 (pct (pred.y - bh / 2) hgt)⟩,
         ⟨round2 (pct (pred.x + bw / 2) wdt), round2 (pct (pred.y - bh / 2) hgt)⟩,
         ⟨round2 (pct (pred.x + bw / 2) wdt), round2 (pct (pred.y + bh / 2) hgt)⟩,
         ⟨round2 (pct (pred.x - bw / 2) wdt), round2 (pct (pred.y + bh / 2) hgt)⟩]
      let cx := round2 (pct pred.x wdt)
      let cy := round2 (pct pred.y hgt)
      some ⟨polygon, ⟨round2 cx, round2 cy⟩, round3 pred.confidence, pred.cls⟩

/-- The full assembly loop over the deduplicated predictions. -/
def assembleHolds (wdt hgt thr : ℚ) (preds : List Prediction) : List Hold :=
  preds.filterMap (assembleOne wdt hgt thr)

/-- Percentage conversion of an integer pixel coordinate,
`round((x / width) * 100, 2)`. -/
def pxToPct (x width : Nat) : ℚ := round2 (pct (x : ℚ) (width : ℚ))

/-- Back-conversion `int((percent / 100) * width)` used for the color
sample position. -/
def pctToPx (p : ℚ) (width : Nat) : ℤ := pyInt (p / 100 * (width : ℚ))

end DetectHolds

namespace DetectHolds

/-! ## List helper lemmas -/

theorem getD_set_self {l : List Bool} {i : Nat} (h : i < l.length) (b d : Bool) :
    (l.set i b).getD i d = b := by
  rw [List.getD_eq_getElem?_getD, List.getElem?_set_self h, Option.getD_some]

theorem getD_set_ne {l : List Bool} {i j : Nat} (h : i ≠ j) (b d : Bool) :
    (l.set i b).getD j d = l.getD j d := by
  rw [List.getD_eq_getElem?_getD, List.getElem?_set_ne h, ← List.getD_eq_getElem?_getD]

theorem getD_set_false_mono {l : List Bool} {i m : Nat}
    (h : (l.set i false).getD m true = true) : l.getD m true = true := by
  by_cases hm : i = m
  · subst hm
    by_cases hi : i < l.length
    · rw [getD_set_self hi] at h
      exact absurd h (by simp)
    · rwa [List.set_eq_of_length_le (by omega)] at h
  · rwa [getD_set_ne hm] at h

theorem getD_map_center {ps : List Prediction} {i : Nat} (h : i < ps.length) (d : ℚ × ℚ) :
    (ps.map center).getD i d = center (ps.get ⟨i, h⟩) := by
  rw [List.getD_eq_getElem?_getD, List.getElem?_map, List.getElem?_eq_getElem h]
  rfl

theorem getD_replicate_true : ∀ (n i : Nat), (List.replicate n true).getD i true = true := by
  intro n
  induction n with
  | zero => intro i; rfl
  | succ n ih =>
    intro i
    cases i with
    | zero => rfl
    | succ i => exact ih i

/-! ## Length and monotonicity of the dedup sweep -/

theorem dedupInner_length (cs : List (ℚ × ℚ)) (confs : List ℚ) (t : ℚ) (i : Nat) :
    ∀ (js : List Nat) (keep : List Bool),
      (dedupInner cs confs t i js keep).length = keep.length := by
  intro js
  induction js with
  | nil => intro keep; rfl
  | cons j js ih =>
    intro keep
    simp only [dedupInner]
    split
    · exact ih keep
    · split
      · split
        · rw [ih, List.length_set]
        · exact List.length_set ..
      · exact ih keep

theorem dedupInner_mono (cs : List (ℚ × ℚ)) (confs : List ℚ) (t : ℚ) (i : Nat) :
    ∀ (js : List Nat) (keep : List Bool) (m : Nat),
      (dedupInner cs confs t i js keep).getD m true = true →
      keep.getD m true = true := by
  intro js
  induction js with
  | nil => intro keep m h; exact h
  | cons j js ih =>
    intro keep m h
    simp only [dedupInner] at h
    split at h
    · exact ih keep m h
    · split at h
      · split at h
        · exact getD_set_false_mono (ih _ m h)
        · exact getD_set_false_mono h
      · exact ih keep m h

theorem dedupOuter_length (cs : List (ℚ × ℚ)) (confs : List ℚ) (t : ℚ) :
    ∀ (idxs : List Nat) (keep : List Bool),
      (dedupOuter cs confs t idxs keep).length = keep.length := by
  intro idxs
  induction idxs with
  | nil => intro keep; rfl
  | cons i idxs ih =>
    intro keep
    simp only [dedupOuter]
    split
    · exact ih keep
    · rw [ih, dedupInner_length]

theorem dedupOuter_mono (cs : List (ℚ × ℚ)) (confs : List ℚ) (t : ℚ) :
    ∀ (idxs : List Nat) (keep : List Bool) (m : Nat),
      (dedupOuter cs confs t idxs keep).getD m true = true →
      keep.getD m true = true := by
  intro idxs
  induction idxs with
  | nil => intro keep m h; exact h
  | cons i idxs ih =>
    intro keep m h
    simp only [dedupOuter] at h
    split at h
    · exact ih keep m h
    · exact dedupInner_mono cs confs t i _ keep m (ih _ m h)

end DetectHolds

namespace DetectHolds

/-! ## Separation: after the sweep, two surviving indices are never close -/

theorem dedupInner_sep (cs : List (ℚ × ℚ)) (confs : List ℚ) (t : ℚ) (i : Nat)
    (hi : i < cs.length) :
    ∀ (js : List Nat) (keep : List Bool), keep.length = cs.length →
      (∀ j ∈ js, j < cs.length) → ∀ j ∈ js,
      (dedupInner cs confs t i js keep).getD i true = true →
      (dedupInner cs confs t i js keep).getD j true = true →
      isClose (cs.getD i (0, 0)) (cs.getD j (0, 0)) t = false := by
  intro js
  induction js with
  | nil => intro keep _ _ j hj; exact absurd hj (List.not_mem_nil j)
  | cons j0 js ih =>
    intro keep hlen hbound j hj hki hkj
    have hj0len : j0 < cs.length := hbound j0 (List.mem_cons_self j0 js)
    simp only [dedupInner] at hki hkj
    by_cases h1 : keep.getD j0 true = false
    · rw [if_pos h1] at hki hkj
      rcases List.mem_cons.mp hj with rfl | hj'
      · have := dedupInner_mono cs confs t i js keep j hkj
        rw [h1] at this
        exact absurd this (by simp)
      · exact ih keep hlen (fun m hm => hbound m (List.mem_cons_of_mem _ hm)) j hj' hki hkj
    · rw [if_neg h1] at hki hkj
      by_cases h2 : isClose (cs.getD i (0, 0)) (cs.getD j0 (0, 0)) t = true
      · rw [if_pos h2] at hki hkj
        by_cases h3 : confs.getD j0 0 ≤ confs.getD i 0
        · rw [if_pos h3] at hki hkj
          rcases List.mem_cons.mp hj with rfl | hj'
          · have := dedupInner_mono cs confs t i js _ j hkj
            rw [getD_set_self (by omega : j < keep.length)] at this
            exact absurd this (by simp)
          · exact ih (keep.set j0 false) (by rw [List.length_set]; exact hlen)
              (fun m hm => hbound m (List.mem_cons_of_mem _ hm)) j hj' hki hkj
        · rw [if_neg h3] at hki
          rw [getD_set_self (by omega : i < keep.length)] at hki
          exact absurd hki (by simp)
      · rw [if_neg h2] at hki hkj
        rcases List.mem_cons.mp hj with rfl | hj'
        · simpa using h2
        · exact ih keep hlen (fun m hm => hbound m (List.mem_cons_of_mem _ hm)) j hj' hki hkj

theorem dedupOuter_sep (cs : List (ℚ × ℚ)) (confs : List ℚ) (t : ℚ) :
    ∀ (idxs : List Nat) (keep : List Bool), keep.length = cs.length →
      (∀ i ∈ idxs, i < cs.length) →
      ∀ i ∈ idxs, ∀ j, i < j → j < cs.length →
      (dedupOuter cs confs t idxs keep).getD i true = true →
      (dedupOuter cs confs t idxs keep).getD j true = true →
      isClose (cs.getD i (0, 0)) (cs.getD j (0, 0)) t = false := by
  intro idxs
  induction idxs with
  | nil => intro keep _ _ i hi; exact absurd hi (List.not_mem_nil i)
  | cons i0 rest ih =>
    intro keep hlen hbound i hi j hij hjlen hki hkj
    have hi0len : i0 < cs.length := hbound i0 (List.mem_cons_self i0 rest)
    simp only [dedupOuter] at hki hkj
    by_cases h1 : keep.getD i0 true = false
    · rw [if_pos h1] at hki hkj
      rcases List.mem_cons.mp hi with rfl | hi'
      · have := dedupOuter_mono cs confs t rest keep i hki
        rw [h1] at this
        exact absurd this (by simp)
      · exact ih keep hlen (fun m hm => hbound m (List.mem_cons_of_mem _ hm)) i hi' j hij hjlen hki hkj
    · rw [if_neg h1] at hki hkj
      rcases List.mem_cons.mp hi with rfl | hi'
      · have hki' := dedupOuter_mono cs confs t rest _ i hki
        have hkj' := dedupOuter_mono cs confs t rest _ j hkj
        have hjmem : j ∈ List.range' (i + 1) (cs.length - (i + 1)) :=
          List.mem_range'_1.mpr ⟨by omega, by omega⟩
        exact dedupInner_sep cs confs t i hi0len _ keep hlen
          (fun m hm => by
            have := List.mem_range'_1.mp hm
            omega) j hjmem hki' hkj'
      · exact ih _ (by rw [dedupInner_length]; exact hlen)
          (fun m hm => hbound m (List.mem_cons_of_mem _ hm)) i hi' j hij hjlen hki hkj

end DetectHolds

namespace DetectHolds

/-! ## From the keep array to the output subsequence -/

theorem applyKeep_mem {α : Type} :
    ∀ (ps : List α) (keep : List Bool) (x : α), x ∈ applyKeep ps keep →
      ∃ (j : Nat) (hj : j < ps.length), ps.get ⟨j, hj⟩ = x ∧ keep.getD j true = true := by
  intro ps
  induction ps with
  | nil => intro keep x hx; exact absurd hx (by simp [applyKeep])
  | cons p ps ih =>
    intro keep x hx
    cases keep with
    | nil => exact absurd hx (by simp [applyKeep])
    | cons k ks =>
      simp only [applyKeep] at hx
      by_cases hk : k = true
      · rw [if_pos hk] at hx
        rcases List.mem_cons.mp hx with rfl | hx'
        · exact ⟨0, by simp, rfl, hk⟩
        · obtain ⟨j, hj, hget, hkeep⟩ := ih ks x hx'
          exact ⟨j + 1, by simpa using hj, hget, hkeep⟩
      · rw [if_neg hk] at hx
        obtain ⟨j, hj, hget, hkeep⟩ := ih ks x hx
        exact ⟨j + 1, by simpa using hj, hget, hkeep⟩

theorem applyKeep_pairwise {α : Type} (R : α → α → Prop) :
    ∀ (ps : List α) (keep : List Bool),
      (∀ (i j : Nat) (hi : i < ps.length) (hj : j < ps.length), i < j →
        keep.getD i true = true → keep.getD j true = true →
        R (ps.get ⟨i, hi⟩) (ps.get ⟨j, hj⟩)) →
      List.Pairwise R (applyKeep ps keep) := by
  intro ps
  induction ps with
  | nil => intro keep _; simp [applyKeep]
  | cons p ps ih =>
    intro keep hR
    cases keep with
    | nil => simp [applyKeep]
    | cons k ks =>
      simp only [applyKeep]
      by_cases hk : k = true
      · rw [if_pos hk]
        refine List.Pairwise.cons ?_ ?_
        · intro y hy
          obtain ⟨j, hj, hget, hkeep⟩ := applyKeep_mem ps ks y hy
          have := hR 0 (j + 1) (by simp) (by simpa using hj) (by omega) hk hkeep
          rw [← hget]
          exact this
        · exact ih ks fun i j hi hj hij hki hkj =>
            hR (i + 1) (j + 1) (by simpa using hi) (by simpa using hj) (by omega) hki hkj
      · rw [if_neg hk]
        exact ih ks fun i j hi hj hij hki hkj =>
          hR (i + 1) (j + 1) (by simpa using hi) (by simpa using hj) (by omega) hki hkj

theorem applyKeep_sublist {α : Type} :
    ∀ (ps : List α) (keep : List Bool), (applyKeep ps keep).Sublist ps := by
  intro ps
  induction ps with
  | nil => intro keep; simp [applyKeep]
  | cons p ps ih =>
    intro keep
    cases keep with
    | nil => simp [applyKeep]
    | cons k ks =>
      simp only [applyKeep]
      by_cases hk : k = true
      · rw [if_pos hk]
        exact List.Sublist.cons₂ p (ih ks)
      · rw [if_neg hk]
        exact List.Sublist.cons p (ih ks)

theorem applyKeep_replicate_true {α : Type} :
    ∀ (ps : List α), applyKeep ps (List.replicate ps.length true) = ps := by
  intro ps
  induction ps with
  | nil => rfl
  | cons p ps ih => simp only [List.length_cons, List.replicate, applyKeep, if_pos]; rw [ih]

/-- Separation of the dedup output: no two survivors are within the
threshold (shared helper behind several claims). -/
theorem dedup_pairwise_sep (preds : List Prediction) (t : ℚ) :
    List.Pairwise (fun a b => isClose (center a) (center b) t = false)
      (deduplicate_predictions preds t) := by
  unfold deduplicate_predictions
  apply applyKeep_pairwise
  intro i j hi hj hij hki hkj
  have hlenc : ((preds.filter validGeom).map center).length = (preds.filter validGeom).length :=
    List.length_map _ _
  have hsep := dedupOuter_sep ((preds.filter validGeom).map center)
    ((preds.filter validGeom).map Prediction.confidence) t
    (List.range (preds.filter validGeom).length)
    (List.replicate (preds.filter validGeom).length true)
    (by rw [List.length_replicate, hlenc])
    (fun m hm => by rw [hlenc]; exact List.mem_range.mp hm)
    i (List.mem_range.mpr hi) j hij (by rw [hlenc]; exact hj) hki hkj
  rwa [getD_map_center hi, getD_map_center hj] at hsep

/-- Every element of the dedup output passed the empty-points filter. -/
theorem dedup_mem_valid (preds : List Prediction) (t : ℚ) :
    ∀ p ∈ deduplicate_predictions preds t, validGeom p = true := by
  intro p hp
  have hp' : p ∈ preds.filter validGeom :=
    (applyKeep_sublist _ _).subset hp
  exact List.of_mem_filter hp'

end DetectHolds

namespace DetectHolds

/-! ## The sweep is the identity when no pair is close -/

theorem dedupInner_noop (cs : List (ℚ × ℚ)) (confs : List ℚ) (t : ℚ) (i : Nat) :
    ∀ (js : List Nat) (keep : List Bool),
      (∀ j ∈ js, isClose (cs.getD i (0, 0)) (cs.getD j (0, 0)) t = false) →
      dedupInner cs confs t i js keep = keep := by
  intro js
  induction js with
  | nil => intro keep _; rfl
  | cons j0 js ih =>
    intro keep hfar
    simp only [dedupInner]
    have h2 : ¬(isClose (cs.getD i (0, 0)) (cs.getD j0 (0, 0)) t = true) := by
      rw [hfar j0 (List.mem_cons_self j0 js)]; simp
    by_cases h1 : keep.getD j0 true = false
    · rw [if_pos h1]
      exact ih keep fun m hm => hfar m (List.mem_cons_of_mem _ hm)
    · rw [if_neg h1, if_neg h2]
      exact ih keep fun m hm => hfar m (List.mem_cons_of_mem _ hm)

theorem dedupOuter_noop (cs : List (ℚ × ℚ)) (confs : List ℚ) (t : ℚ) :
    ∀ (idxs : List Nat) (keep : List Bool),
      (∀ i ∈ idxs, ∀ j ∈ List.range' (i + 1) (cs.length - (i + 1)),
        isClose (cs.getD i (0, 0)) (cs.getD j (0, 0)) t = false) →
      dedupOuter cs confs t idxs keep = keep := by
  intro idxs
  induction idxs with
  | nil => intro keep _; rfl
  | cons i0 rest ih =>
    intro keep hfar
    simp only [dedupOuter]
    rw [dedupInner_noop cs confs t i0 _ keep (hfar i0 (List.mem_cons_self i0 rest))]
    split
    · exact ih keep fun m hm => hfar m (List.mem_cons_of_mem _ hm)
    · exact ih keep fun m hm => hfar m (List.mem_cons_of_mem _ hm)

/-- The pass `deduplicate_predictions` is the identity on a list whose members all
pass the empty-points filter and whose centers are pairwise not close. -/
theorem dedup_eq_self (l : List Prediction) (t : ℚ)
    (hvalid : ∀ p ∈ l, validGeom p = true)
    (hsep : List.Pairwise (fun a b => isClose (center a) (center b) t = false) l) :
    deduplicate_predictions l t = l := by
  have hfilter : l.filter validGeom = l := List.filter_eq_self.mpr hvalid
  have hfar : ∀ i ∈ List.range (l.filter validGeom).length,
      ∀ j ∈ List.range' (i + 1) (((l.filter validGeom).map center).length - (i + 1)),
      isClose (((l.filter validGeom).map center).getD i (0, 0))
        (((l.filter validGeom).map center).getD j (0, 0)) t = false := by
    rw [hfilter]
    intro i hi j hj
    have hi' : i < l.length := List.mem_range.mp hi
    have hj' := List.mem_range'_1.mp hj
    have hjl : j < l.length := by
      rw [List.length_map] at hj'
      omega
    rw [getD_map_center hi', getD_map_center hjl]
    exact List.pairwise_iff_get.mp hsep ⟨i, hi'⟩ ⟨j, hjl⟩ (by simpa using hj'.1)
  show applyKeep (l.filter validGeom)
    (dedupOuter ((l.filter validGeom).map center)
      ((l.filter validGeom).map Prediction.confidence) t
      (List.range (l.filter validGeom).length)
      (List.replicate (l.filter validGeom).length true)) = l
  rw [dedupOuter_noop _ _ _ _ _ hfar, hfilter, applyKeep_replicate_true]

end DetectHolds

namespace DetectHolds

/-- A box-form prediction (no `"points"` key) with unit extent, used as a
concrete test detection. -/
def boxAt (x y conf : ℚ) : Prediction := ⟨none, x, y, 1, 1, conf, "hold"⟩

/-- C4: deduplication is idempotent — applying `deduplicate_predictions`
to its own output (same threshold) returns that output unchanged, for
every input list and threshold. -/
theorem claim_C4_dedup_idempotent (preds : List Prediction) (t : ℚ) :
    deduplicate_predictions (deduplicate_predictions preds t) t =
      deduplicate_predictions preds t :=
  dedup_eq_self _ t (dedup_mem_valid preds t) (dedup_pairwise_sep preds t)

/-- C10: any two detections that both survive `deduplicate_predictions`
have centers at squared distance at least the square of the (nonnegative)
threshold, i.e. Euclidean distance at least the threshold. -/
theorem claim_C10_survivors_separated (preds : List Prediction) (t : ℚ) (ht : 0 ≤ t) :
    List.Pairwise (fun a b => t ^ 2 ≤ sqDist (center a) (center b))
      (deduplicate_predictions preds t) := by
  refine (dedup_pairwise_sep preds t).imp ?_
  intro a b hab
  have hnn : 0 ≤ sqDist (center a) (center b) := by
    unfold sqDist
    positivity
  rcases Bool.and_eq_false_iff.mp hab with h | h
  · have ht0 : ¬(0 < t) := of_decide_eq_false h
    have : t = 0 := le_antisymm (not_lt.mp ht0) ht
    rw [this]
    simpa using hnn
  · have := of_decide_eq_false h
    linarith [not_lt.mp this]

/-- Witness for C10 at a concrete input. -/
theorem claim_C10_witness :
    List.Pairwise (fun a b => (20 : ℚ) ^ 2 ≤ sqDist (center a) (center b))
      (deduplicate_predictions [boxAt 0 0 1, boxAt 100 0 1] 20) :=
  claim_C10_survivors_separated [boxAt 0 0 1, boxAt 100 0 1] 20 (by norm_num)

/-- C3 counterexample: in the list `[A, B, C]` with centers `(0,0)`,
`(10,0)`, `(25,0)` and confidences `0.9, 0.8, 0.5`, the pair `(B, C)` is
within the threshold 20 and `C` has the lower confidence, yet `C` is not
removed: the script removes `B` first (pair `(A, B)`) and then never
examines the pair `(B, C)`, so the claim's unconditional pairwise marking
rule fails on the code. -/
theorem claim_C3_counterexample :
    isClose (center (boxAt 10 0 (8 / 10))) (center (boxAt 25 0 (1 / 2))) 20 = true ∧
    (boxAt 25 0 (1 / 2)).confidence < (boxAt 10 0 (8 / 10)).confidence ∧
    deduplicate_predictions [boxAt 0 0 (9 / 10), boxAt 10 0 (8 / 10), boxAt 25 0 (1 / 2)] 20 =
      [boxAt 0 0 (9 / 10), boxAt 25 0 (1 / 2)] := by
  refine ⟨?_, by norm_num [boxAt], ?_⟩
  · norm_num [isClose, center, boxAt, sqDist]
  · norm_num [deduplicate_predictions, List.filter, validGeom, dedupOuter, dedupInner,
      applyKeep, List.getD, center, isClose, sqDist, boxAt, List.range_succ]

/-- C3 (amended): the output is a subsequence of the input in original
order; no two close detections both survive; and a pair examined with both
members unmarked removes exactly its lower-confidence member, ties
removing the later one (shown in the pure two-detection case, where every
pair is examined unmarked). -/
theorem claim_C3_amended_dedup_rule (preds : List Prediction) (t : ℚ) :
    (deduplicate_predictions preds t).Sublist preds ∧
    List.Pairwise (fun a b => isClose (center a) (center b) t = false)
      (deduplicate_predictions preds t) ∧
    (∀ p q : Prediction, validGeom p = true → validGeom q = true →
      isClose (center p) (center q) t = true →
      deduplicate_predictions [p, q] t =
        if q.confidence ≤ p.confidence then [p] else [q]) := by
  refine ⟨?_, dedup_pairwise_sep preds t, ?_⟩
  · exact (applyKeep_sublist _ _).trans (List.filter_sublist preds)
  · intro p q hp hq hclose
    by_cases hc : q.confidence ≤ p.confidence
    · rw [if_pos hc]
      simp [deduplicate_predictions, List.filter, hp, hq, dedupOuter, dedupInner,
        List.getD, hclose, hc, applyKeep, List.range_succ]
    · rw [if_neg hc]
      simp [deduplicate_predictions, List.filter, hp, hq, dedupOuter, dedupInner,
        List.getD, hclose, hc, applyKeep, List.range_succ]

/-- Witness for the amended C3 at a concrete input: two close detections,
equal confidence, the later one is removed. -/
theorem claim_C3_amended_witness :
    deduplicate_predictions [boxAt 0 0 (1 / 2), boxAt 10 0 (1 / 2)] 20 = [boxAt 0 0 (1 / 2)] := by
  have h := (claim_C3_amended_dedup_rule [] 20).2.2 (boxAt 0 0 (1 / 2)) (boxAt 10 0 (1 / 2))
    rfl rfl (by norm_num [isClose, center, boxAt, sqDist])
  rw [h]
  norm_num [boxAt]

end DetectHolds

namespace DetectHolds

/-- C1 (the code, not the claim): when all three attempts return a 5xx
status, `call_api` raises `Exception("API error: 503 - ...")` after two
backoff waits (1s, 2s); it does not reach the trailing `return []`, so the
tile's detections are not silently empty — the run aborts. -/
theorem claim_C1_exhausted_5xx_raises :
    call_api (fun _ => ⟨503, [], "Service Unavailable"⟩) 3 =
      ⟨.raised "API error: 503 - Service Unavailable", [1, 2]⟩ := by
  simp [call_api, callApiLoop, apiErrorMsg]
  rfl

/-- C2: a service answering 503 on the first two attempts and 200 on the
third makes `call_api` return the successful predictions after exactly the
two backoff waits 1s and 2s, raising nothing; a service answering any
non-200 status below 500 (e.g. 404) on the first attempt makes `call_api`
raise immediately, after zero waits and zero further attempts. -/
theorem claim_C2_retry_backoff (preds : List Prediction) :
    call_api (fun a => if a < 2 then ⟨503, [], "Service Unavailable"⟩
      else ⟨200, preds, ""⟩) 3 = ⟨.ok preds, [1, 2]⟩ ∧
    (∀ (status : Nat) (body : String), status ≠ 200 → status < 500 →
      call_api (fun _ => ⟨status, [], body⟩) 3 =
        ⟨.raised (apiErrorMsg status body), []⟩) := by
  constructor
  · simp [call_api, callApiLoop]
  · intro status body hne hlt
    unfold call_api
    rw [callApiLoop.eq_def]
    norm_num
    rw [if_neg hne, if_neg (by omega : ¬(500 ≤ status))]

/-- Witness for C2: the error half at the concrete status 404. -/
theorem claim_C2_witness :
    call_api (fun a => if a < 2 then ⟨503, [], "Service Unavailable"⟩
      else ⟨200, [], ""⟩) 3 = ⟨.ok [], [1, 2]⟩ ∧
    call_api (fun _ => ⟨404, [], "Not Found"⟩) 3 =
      ⟨.raised (apiErrorMsg 404 "Not Found"), []⟩ :=
  ⟨(claim_C2_retry_backoff []).1,
   (claim_C2_retry_backoff []).2 404 "Not Found" (by norm_num) (by norm_num)⟩

end DetectHolds

namespace DetectHolds

/-- Numeric form of column membership for the 300-pixel axis: the three
tiles span `[0,130)`, `[70,230)`, `[170,300)`. -/
theorem inTileX_300 (c z : Nat) :
    inTileX 300 c z ↔ (c * 100 - 30 ≤ z ∧ z < min 300 ((c + 1) * 100 + 30)) := by
  have e1 : tileW 300 = 100 := rfl
  have e2 : overlapX 300 = 30 := rfl
  unfold inTileX tileX1 tileX2
  rw [e1, e2]

/-- C7: on a 300×300 image tiled 3×3 with 30% overlap, every pixel lies in
at least one tile, and every pixel strictly within 30 px of an internal
grid line (`x = 100, 200` or `y = 100, 200`) lies in at least two distinct
tiles. -/
theorem claim_C7_tile_coverage (x y : Nat) (hx : x < 300) (hy : y < 300) :
    (∃ r c, r < 3 ∧ c < 3 ∧ inTile 300 300 r c x y) ∧
    (((70 < x ∧ x < 130) ∨ (170 < x ∧ x < 230) ∨
      (70 < y ∧ y < 130) ∨ (170 < y ∧ y < 230)) →
      ∃ r₁ c₁ r₂ c₂, r₁ < 3 ∧ c₁ < 3 ∧ r₂ < 3 ∧ c₂ < 3 ∧ (r₁, c₁) ≠ (r₂, c₂) ∧
        inTile 300 300 r₁ c₁ x y ∧ inTile 300 300 r₂ c₂ x y) := by
  have hcov : ∀ z : Nat, z < 300 → ∃ c, c < 3 ∧ inTileX 300 c z := by
    intro z hz
    by_cases h1 : z < 130
    · exact ⟨0, by omega, (inTileX_300 0 z).mpr (by omega)⟩
    · by_cases h2 : z < 230
      · exact ⟨1, by omega, (inTileX_300 1 z).mpr (by omega)⟩
      · exact ⟨2, by omega, (inTileX_300 2 z).mpr (by omega)⟩
  have hcov2 : ∀ z : Nat, (70 < z ∧ z < 130) ∨ (170 < z ∧ z < 230) →
      ∃ c₁ c₂, c₁ < c₂ ∧ c₂ < 3 ∧ inTileX 300 c₁ z ∧ inTileX 300 c₂ z := by
    intro z hz
    rcases hz with h | h
    · exact ⟨0, 1, by omega, by omega,
        (inTileX_300 0 z).mpr (by omega), (inTileX_300 1 z).mpr (by omega)⟩
    · exact ⟨1, 2, by omega, by omega,
        (inTileX_300 1 z).mpr (by omega), (inTileX_300 2 z).mpr (by omega)⟩
  obtain ⟨c, hc3, hcx⟩ := hcov x hx
  obtain ⟨r, hr3, hry⟩ := hcov y hy
  refine ⟨⟨r, c, hr3, hc3, hcx, hry⟩, ?_⟩
  intro hnear
  rcases hnear with h | h | h | h
  · obtain ⟨c₁, c₂, h12, hc2, hx1, hx2⟩ := hcov2 x (Or.inl h)
    exact ⟨r, c₁, r, c₂, hr3, by omega, hr3, hc2,
      by simp [Prod.ext_iff]; omega, ⟨hx1, hry⟩, ⟨hx2, hry⟩⟩
  · obtain ⟨c₁, c₂, h12, hc2, hx1, hx2⟩ := hcov2 x (Or.inr h)
    exact ⟨r, c₁, r, c₂, hr3, by omega, hr3, hc2,
      by simp [Prod.ext_iff]; omega, ⟨hx1, hry⟩, ⟨hx2, hry⟩⟩
  · obtain ⟨r₁, r₂, h12, hr2, hy1, hy2⟩ := hcov2 y (Or.inl h)
    exact ⟨r₁, c, r₂, c, by omega, hc3, hr2, hc3,
      by simp [Prod.ext_iff]; omega, ⟨hcx, hy1⟩, ⟨hcx, hy2⟩⟩
  · obtain ⟨r₁, r₂, h12, hr2, hy1, hy2⟩ := hcov2 y (Or.inr h)
    exact ⟨r₁, c, r₂, c, by omega, hc3, hr2, hc3,
      by simp [Prod.ext_iff]; omega, ⟨hcx, hy1⟩, ⟨hcx, hy2⟩⟩

/-- Witness for C7 at the concrete pixel (75, 5), which is within 30 px of
the grid line `x = 100`. -/
theorem claim_C7_witness :
    (∃ r c, r < 3 ∧ c < 3 ∧ inTile 300 300 r c 75 5) ∧
    (∃ r₁ c₁ r₂ c₂, r₁ < 3 ∧ c₁ < 3 ∧ r₂ < 3 ∧ c₂ < 3 ∧ (r₁, c₁) ≠ (r₂, c₂) ∧
      inTile 300 300 r₁ c₁ 75 5 ∧ inTile 300 300 r₂ c₂ 75 5) := by
  have h := claim_C7_tile_coverage 75 5 (by decide) (by decide)
  exact ⟨h.1, h.2 (by decide)⟩

end DetectHolds

namespace DetectHolds

/-- C8: for an image dimension `w ≤ 4096` and a pixel coordinate `x` inside
the image, converting `x` to a percentage with `round((x / w) * 100, 2)`
and mapping back with `int((percent / 100) * w)` recovers `x` to within
one pixel (identically for the y-axis, which uses the same formulas). -/
theorem claim_C8_pct_round_trip (x w : Nat) (hw : 0 < w) (hw4096 : w ≤ 4096)
    (_hx : x ≤ w) :
    |pctToPx (pxToPct x w) w - (x : ℤ)| ≤ 1 := by
  have hw0 : (0 : ℚ) < (w : ℚ) := by exact_mod_cast hw
  set s : ℚ := (x : ℚ) / (w : ℚ) * 100 * 100 with hs
  have hpx : pxToPct x w = (round s : ℚ) / 100 := by
    unfold pxToPct round2 pct
    rw [hs]
  have hround : |s - (round s : ℚ)| ≤ 1 / 2 := abs_sub_round s
  set value : ℚ := ((round s : ℚ) / 100) / 100 * (w : ℚ) with hv
  have hval : pctToPx (pxToPct x w) w = pyInt value := by
    rw [hpx]
    rfl
  have hsw : s * (w : ℚ) / 10000 = (x : ℚ) := by
    rw [hs]
    field_simp
    ring
  have hdiff : value - (x : ℚ) = ((round s : ℚ) - s) * (w : ℚ) / 10000 := by
    rw [hv, ← hsw]
    ring
  have hwq : (w : ℚ) ≤ 4096 := by exact_mod_cast hw4096
  have habs : |value - (x : ℚ)| ≤ (w : ℚ) / 20000 := by
    rw [hdiff, abs_div, abs_mul, abs_of_nonneg (le_of_lt hw0), abs_of_nonneg (by norm_num : (0:ℚ) ≤ 10000)]
    have : |(round s : ℚ) - s| ≤ 1 / 2 := by
      rw [abs_sub_comm]
      exact hround
    calc |(round s : ℚ) - s| * (w : ℚ) / 10000
        ≤ (1 / 2) * (w : ℚ) / 10000 := by
          apply div_le_div_of_nonneg_right ?_ (by norm_num)
          exact mul_le_mul_of_nonneg_right this (le_of_lt hw0)
      _ = (w : ℚ) / 20000 := by ring
  have hsmall : (w : ℚ) / 20000 < 1 / 2 := by
    rw [div_lt_iff₀ (by norm_num : (0:ℚ) < 20000)]
    linarith
  have hlow : (x : ℚ) - 1 / 2 ≤ value := by
    have := abs_le.mp habs
    linarith
  have hhigh : value < (x : ℚ) + 1 / 2 := by
    have := abs_le.mp habs
    linarith
  have h0s : 0 ≤ s := by
    rw [hs]
    positivity
  have h0r : (0 : ℤ) ≤ round s := by
    rw [round_eq]
    rw [Int.le_floor]
    push_cast
    linarith
  have h0v : 0 ≤ value := by
    rw [hv]
    have : (0 : ℚ) ≤ (round s : ℚ) := by exact_mod_cast h0r
    positivity
  have hpy : pyInt value = ⌊value⌋ := by
    unfold pyInt
    rw [if_pos h0v]
  have hfloor_le : ⌊value⌋ ≤ (x : ℤ) := by
    have hx1 : value < (((x : ℤ) + 1 : ℤ) : ℚ) := by push_cast; linarith
    have := Int.floor_lt.mpr hx1
    omega
  have hfloor_ge : (x : ℤ) - 1 ≤ ⌊value⌋ := by
    apply Int.le_floor.mpr
    push_cast
    linarith
  rw [hval, hpy]
  rw [abs_le]
  omega

/-- Witness for C8 at `x = 123`, `w = 300` (the round trip is exact there). -/
theorem claim_C8_witness :
    (0 < 300 ∧ 300 ≤ 4096 ∧ 123 ≤ 300) ∧ |pctToPx (pxToPct 123 300) 300 - (123 : ℤ)| ≤ 1 :=
  ⟨⟨by norm_num, by norm_num, by norm_num⟩,
    claim_C8_pct_round_trip 123 300 (by norm_num) (by norm_num) (by norm_num)⟩

end DetectHolds

namespace DetectHolds

/-! ## Bounds helpers for the assembler -/

theorem round2_bounds {q : ℚ} (h0 : 0 ≤ q) (h1 : q ≤ 100) :
    0 ≤ round2 q ∧ round2 q ≤ 100 := by
  unfold round2
  constructor
  · apply div_nonneg _ (by norm_num)
    have : (0 : ℤ) ≤ round (q * 100) := by
      rw [round_eq, Int.le_floor]
      push_cast
      linarith
    exact_mod_cast this
  · rw [div_le_iff₀ (by norm_num : (0:ℚ) < 100)]
    have : round (q * 100) ≤ 10000 := by
      rw [round_eq]
      have : ⌊q * 100 + 1 / 2⌋ ≤ ⌊(20001 : ℚ) / 2⌋ := Int.floor_le_floor (by linarith)
      have h2 : ⌊(20001 : ℚ) / 2⌋ = 10000 := by
        rw [Int.floor_eq_iff]
        norm_num
      omega
    have : ((round (q * 100) : ℤ) : ℚ) ≤ 10000 := by exact_mod_cast this
    linarith

theorem pct_bounds {v dim : ℚ} (hd : 0 < dim) (h0 : 0 ≤ v) (h1 : v ≤ dim) :
    0 ≤ pct v dim ∧ pct v dim ≤ 100 := by
  unfold pct
  constructor
  · positivity
  · have : v / dim ≤ 1 := (div_le_one hd).mpr h1
    nlinarith

theorem mean_bounds {l : List ℚ} (hne : l ≠ [])
    (h : ∀ z ∈ l, 0 ≤ z ∧ z ≤ 100) :
    0 ≤ l.sum / l.length ∧ l.sum / l.length ≤ 100 := by
  have hlen : (0 : ℚ) < l.length := by
    have := List.length_pos.mpr hne
    exact_mod_cast this
  constructor
  · apply div_nonneg _ (le_of_lt hlen)
    exact List.sum_nonneg fun z hz => (h z hz).1
  · rw [div_le_iff₀ hlen]
    have := List.sum_le_card_nsmul l 100 fun z hz => (h z hz).2
    rw [nsmul_eq_mul] at this
    linarith

/-- Applying `round2` twice equals applying it once (the emitted box center is rounded a
second time in the final record, which changes nothing). -/
theorem round2_round2 (q : ℚ) : round2 (round2 q) = round2 q := by
  unfold round2
  rw [div_mul_cancel₀ _ (by norm_num : (100 : ℚ) ≠ 0), round_intCast]

/-- C5: the assembler's confidence filter keeps a detection whose
confidence equals the threshold (a Hold is emitted, provided its geometry
is valid) and drops a detection whose confidence is strictly below it. -/
theorem claim_C5_confidence_filter (wdt hgt thr : ℚ) (pred : Prediction) :
    (pred.confidence < thr → assembleOne wdt hgt thr pred = none) ∧
    (pred.confidence = thr → validGeom pred = true →
      (assembleOne wdt hgt thr pred).isSome = true) := by
  constructor
  · intro h
    unfold assembleOne
    rw [if_pos h]
  · intro heq hvalid
    unfold assembleOne
    rw [if_neg (by rw [heq]; exact lt_irrefl thr)]
    cases hp : pred.points with
    | none => simp
    | some pts =>
      have hne : pts.length ≠ 0 := by
        unfold validGeom at hvalid
        rw [hp] at hvalid
        simpa using hvalid
      simp [List.length_map, hne]

/-- Witness for C5: confidence 1/4 < 1/2 is dropped, confidence exactly
1/2 is emitted. -/
theorem claim_C5_witness :
    assembleOne 100 100 (1 / 2) (boxAt 10 10 (1 / 4)) = none ∧
    (assembleOne 100 100 (1 / 2) (boxAt 10 10 (1 / 2))).isSome = true :=
  ⟨(claim_C5_confidence_filter 100 100 (1 / 2) (boxAt 10 10 (1 / 4))).1 (by norm_num [boxAt]),
   (claim_C5_confidence_filter 100 100 (1 / 2) (boxAt 10 10 (1 / 2))).2 (by norm_num [boxAt]) rfl⟩

/-- C6 counterexample: the box-form detection `x=10, y=10, w=40, h=40`
(fields well inside the coordinate space of tile (0,0) of a 300×300
image) produces an emitted polygon corner at `-3.33` percent, outside
`[0, 100]`: the synthesized corners are not clamped. -/
theorem claim_C6_counterexample :
    ∃ hold, assembleOne 300 300 (1 / 2) ⟨none, 10, 10, 40, 40, 9 / 10, "hold"⟩ = some hold ∧
      (hold.polygon.getD 0 ⟨0, 0⟩).x < 0 := by
  refine ⟨⟨[⟨-333/100, -333/100⟩, ⟨10, -333/100⟩, ⟨10, 10⟩, ⟨-333/100, 10⟩],
    ⟨333/100, 333/100⟩, 9/10, "hold"⟩, ?_, by norm_num [List.getD]⟩
  norm_num [assembleOne, pct, round2, round3, round_eq, Option.some.injEq,
    Hold.mk.injEq, Point.mk.injEq]

/-- C6 (amended): the emitted center coordinates are percentages in
[0,100] whenever the detection's own center lies in the image — for a
box-form detection this needs only the stored center, regardless of the
box extent; for a polygon-form detection whose points lie in the
submitted region, both the emitted polygon points and the center lie in
[0,100].  The synthesized corners of a box-form detection are not
clamped: they are guaranteed in [0,100] when the box extent (center ±
half size) lies inside the image, and a box extending far enough past the
border emits corner percentages outside [0,100]. -/
theorem claim_C6_amended_bounds (wdt hgt thr : ℚ) (pred : Prediction) (hold : Hold)
    (hw : 0 < wdt) (hh : 0 < hgt)
    (hsome : assembleOne wdt hgt thr pred = some hold) :
    (pred.points = none → 0 ≤ pred.x → pred.x ≤ wdt → 0 ≤ pred.y → pred.y ≤ hgt →
      0 ≤ hold.centerPt.x ∧ hold.centerPt.x ≤ 100 ∧
      0 ≤ hold.centerPt.y ∧ hold.centerPt.y ≤ 100) ∧
    (∀ pts, pred.points = some pts →
      (∀ p ∈ pts, 0 ≤ p.x ∧ p.x ≤ wdt ∧ 0 ≤ p.y ∧ p.y ≤ hgt) →
      (∀ q ∈ hold.polygon, 0 ≤ q.x ∧ q.x ≤ 100 ∧ 0 ≤ q.y ∧ q.y ≤ 100) ∧
      (0 ≤ hold.centerPt.x ∧ hold.centerPt.x ≤ 100 ∧
       0 ≤ hold.centerPt.y ∧ hold.centerPt.y ≤ 100)) ∧
    (pred.points = none → 0 ≤ pred.width → 0 ≤ pred.height →
      0 ≤ pred.x - pred.width / 2 → pred.x + pred.width / 2 ≤ wdt →
      0 ≤ pred.y - pred.height / 2 → pred.y + pred.height / 2 ≤ hgt →
      ∀ q ∈ hold.polygon, 0 ≤ q.x ∧ q.x ≤ 100 ∧ 0 ≤ q.y ∧ q.y ≤ 100) := by
  refine ⟨?_, ?_, ?_⟩
  · intro hp hx0 hx1 hy0 hy1
    unfold assembleOne at hsome
    split at hsome
    · exact absurd hsome (by simp)
    · rw [hp] at hsome
      simp only at hsome
      cases hsome
      have bcx := round2_bounds (pct_bounds hw hx0 hx1).1 (pct_bounds hw hx0 hx1).2
      have bccx := round2_bounds bcx.1 bcx.2
      have bcy := round2_bounds (pct_bounds hh hy0 hy1).1 (pct_bounds hh hy0 hy1).2
      have bccy := round2_bounds bcy.1 bcy.2
      exact ⟨bccx.1, bccx.2, bccy.1, bccy.2⟩
  · intro pts hp hpts
    unfold assembleOne at hsome
    split at hsome
    · exact absurd hsome (by simp)
    · rw [hp] at hsome
      simp only at hsome
      by_cases hlen : (pts.map fun p =>
          (⟨round2 (pct p.x wdt), round2 (pct p.y hgt)⟩ : Point)).length = 0
      · rw [if_pos hlen] at hsome
        exact absurd hsome (by simp)
      · rw [if_neg hlen] at hsome
        have hptsne : pts ≠ [] := by
          intro hnil
          rw [hnil] at hlen
          exact hlen rfl
        cases hsome
        have hmemb : ∀ q ∈ pts.map fun p =>
            (⟨round2 (pct p.x wdt), round2 (pct p.y hgt)⟩ : Point),
            0 ≤ q.x ∧ q.x ≤ 100 ∧ 0 ≤ q.y ∧ q.y ≤ 100 := by
          intro q hq
          obtain ⟨p, hpmem, rfl⟩ := List.mem_map.mp hq
          obtain ⟨h1, h2, h3, h4⟩ := hpts p hpmem
          obtain ⟨hx0, hx1⟩ := round2_bounds (pct_bounds hw h1 h2).1 (pct_bounds hw h1 h2).2
          obtain ⟨hy0, hy1⟩ := round2_bounds (pct_bounds hh h3 h4).1 (pct_bounds hh h3 h4).2
          exact ⟨hx0, hx1, hy0, hy1⟩
        refine ⟨hmemb, ?_⟩
        have hxs : ∀ z ∈ ((pts.map fun p =>
            (⟨round2 (pct p.x wdt), round2 (pct p.y hgt)⟩ : Point)).map Point.x),
            0 ≤ z ∧ z ≤ 100 := by
          intro z hz
          obtain ⟨q, hqmem, rfl⟩ := List.mem_map.mp hz
          exact ⟨(hmemb q hqmem).1, (hmemb q hqmem).2.1⟩
        have hys : ∀ z ∈ ((pts.map fun p =>
            (⟨round2 (pct p.x wdt), round2 (pct p.y hgt)⟩ : Point)).map Point.y),
            0 ≤ z ∧ z ≤ 100 := by
          intro z hz
          obtain ⟨q, hqmem, rfl⟩ := List.mem_map.mp hz
          exact ⟨(hmemb q hqmem).2.2.1, (hmemb q hqmem).2.2.2⟩
        have hnex : ((pts.map fun p =>
            (⟨round2 (pct p.x wdt), round2 (pct p.y hgt)⟩ : Point)).map Point.x) ≠ [] := by
          simp [hptsne]
        have hney : ((pts.map fun p =>
            (⟨round2 (pct p.x wdt), round2 (pct p.y hgt)⟩ : Point)).map Point.y) ≠ [] := by
          simp [hptsne]
        have hmx := mean_bounds hnex hxs
        have hmy := mean_bounds hney hys
        simp only [List.length_map] at hmx hmy ⊢
        refine ⟨?_, ?_, ?_, ?_⟩
        · simpa using (round2_bounds (by simpa using hmx.1) (by simpa using hmx.2)).1
        · simpa using (round2_bounds (by simpa using hmx.1) (by simpa using hmx.2)).2
        · simpa using (round2_bounds (by simpa using hmy.1) (by simpa using hmy.2)).1
        · simpa using (round2_bounds (by simpa using hmy.1) (by simpa using hmy.2)).2
  · intro hp hbw hbh hx0 hx1 hy0 hy1
    unfold assembleOne at hsome
    split at hsome
    · exact absurd hsome (by simp)
    · rw [hp] at hsome
      simp only at hsome
      cases hsome
      have cx2 : pred.x - pred.width / 2 ≤ wdt := by linarith
      have cx3 : 0 ≤ pred.x + pred.width / 2 := by linarith
      have cy2 : pred.y - pred.height / 2 ≤ hgt := by linarith
      have cy3 : 0 ≤ pred.y + pred.height / 2 := by linarith
      have bxm := round2_bounds (pct_bounds hw hx0 cx2).1 (pct_bounds hw hx0 cx2).2
      have bxp := round2_bounds (pct_bounds hw cx3 hx1).1 (pct_bounds hw cx3 hx1).2
      have bym := round2_bounds (pct_bounds hh hy0 cy2).1 (pct_bounds hh hy0 cy2).2
      have byp := round2_bounds (pct_bounds hh cy3 hy1).1 (pct_bounds hh cy3 hy1).2
      intro q hq
      simp only [List.mem_cons, List.not_mem_nil, or_false] at hq
      rcases hq with rfl | rfl | rfl | rfl
      · exact ⟨bxm.1, bxm.2, bym.1, bym.2⟩
      · exact ⟨bxp.1, bxp.2, bym.1, bym.2⟩
      · exact ⟨bxp.1, bxp.2, byp.1, byp.2⟩
      · exact ⟨bxm.1, bxm.2, byp.1, byp.2⟩

/-- Witness for the amended C6: a 10×10 box centered at (50,50) of a
100×100 image — center and all four corners land in [0,100]. -/
theorem claim_C6_amended_witness :
    (0 ≤ (⟨[⟨45, 45⟩, ⟨55, 45⟩, ⟨55, 55⟩, ⟨45, 55⟩], ⟨50, 50⟩, 9 / 10, "hold"⟩ : Hold).centerPt.x ∧
     (⟨[⟨45, 45⟩, ⟨55, 45⟩, ⟨55, 55⟩, ⟨45, 55⟩], ⟨50, 50⟩, 9 / 10, "hold"⟩ : Hold).centerPt.x ≤ 100 ∧
     0 ≤ (⟨[⟨45, 45⟩, ⟨55, 45⟩, ⟨55, 55⟩, ⟨45, 55⟩], ⟨50, 50⟩, 9 / 10, "hold"⟩ : Hold).centerPt.y ∧
     (⟨[⟨45, 45⟩, ⟨55, 45⟩, ⟨55, 55⟩, ⟨45, 55⟩], ⟨50, 50⟩, 9 / 10, "hold"⟩ : Hold).centerPt.y ≤ 100) ∧
    (∀ q ∈ (⟨[⟨45, 45⟩, ⟨55, 45⟩, ⟨55, 55⟩, ⟨45, 55⟩], ⟨50, 50⟩, 9 / 10, "hold"⟩ : Hold).polygon,
      0 ≤ q.x ∧ q.x ≤ 100 ∧ 0 ≤ q.y ∧ q.y ≤ 100) := by
  have h := claim_C6_amended_bounds 100 100 (1 / 2) ⟨none, 50, 50, 10, 10, 9 / 10, "hold"⟩
    ⟨[⟨45, 45⟩, ⟨55, 45⟩, ⟨55, 55⟩, ⟨45, 55⟩], ⟨50, 50⟩, 9 / 10, "hold"⟩
    (by norm_num) (by norm_num)
    (by norm_num [assembleOne, pct, round2, round3, round_eq, Option.some.injEq,
      Hold.mk.injEq, Point.mk.injEq])
  exact ⟨h.1 rfl (by norm_num) (by norm_num) (by norm_num) (by norm_num),
    h.2.2 rfl (by norm_num) (by norm_num) (by norm_num) (by norm_num) (by norm_num)
      (by norm_num)⟩

/-- C9: the two center paths of the assembler.  For a polygon-form
detection the emitted center is the (rounded) arithmetic mean of the
already-converted, already-rounded polygon points; for a box-form
detection it is the stored pixel center converted directly to a rounded
percentage.  Two concrete instances show the divergence: a box whose
direct center differs from the mean of its four synthesized corners, and
a polygon whose mean-after-conversion differs from converting the mean of
the raw points. -/
theorem claim_C9_center_paths (wdt hgt thr : ℚ) (pred : Prediction) :
    (∀ (pts : List Point) (hold : Hold), pred.points = some pts →
      assembleOne wdt hgt thr pred = some hold →
      hold.centerPt.x = round2 ((pts.map fun p => round2 (pct p.x wdt)).sum / pts.length) ∧
      hold.centerPt.y = round2 ((pts.map fun p => round2 (pct p.y hgt)).sum / pts.length)) ∧
    (∀ hold : Hold, pred.points = none →
      assembleOne wdt hgt thr pred = some hold →
      hold.centerPt.x = round2 (pct pred.x wdt) ∧
      hold.centerPt.y = round2 (pct pred.y hgt)) ∧
    (∃ hold : Hold,
      assembleOne 1000 1000 (1 / 2) ⟨none, 3 / 50, 3 / 50, 2 / 25, 2 / 25, 9 / 10, "hold"⟩ =
        some hold ∧
      hold.centerPt.x ≠ (hold.polygon.map Point.x).sum / hold.polygon.length) ∧
    (∃ hold : Hold,
      assembleOne 1000 1000 (1 / 2)
        ⟨some [⟨21 / 500, 21 / 500⟩, ⟨21 / 500, 21 / 500⟩, ⟨71 / 500, 71 / 500⟩],
          0, 0, 0, 0, 9 / 10, "hold"⟩ = some hold ∧
      hold.centerPt.x ≠ round2 (pct ((21 / 500 + 21 / 500 + 71 / 500) / 3) 1000)) := by
  refine ⟨?_, ?_, ?_, ?_⟩
  · intro pts hold hp hsome
    unfold assembleOne at hsome
    split at hsome
    · exact absurd hsome (by simp)
    · rw [hp] at hsome
      simp only at hsome
      by_cases hlen : (pts.map fun p =>
          (⟨round2 (pct p.x wdt), round2 (pct p.y hgt)⟩ : Point)).length = 0
      · rw [if_pos hlen] at hsome
        exact absurd hsome (by simp)
      · rw [if_neg hlen] at hsome
        cases hsome
        constructor
        · simp [List.map_map, Function.comp_def, List.length_map]
        · simp [List.map_map, Function.comp_def, List.length_map]
  · intro hold hp hsome
    unfold assembleOne at hsome
    split at hsome
    · exact absurd hsome (by simp)
    · rw [hp] at hsome
      simp only at hsome
      cases hsome
      exact ⟨round2_round2 _, round2_round2 _⟩
  · refine ⟨⟨[⟨0, 0⟩, ⟨1/100, 0⟩, ⟨1/100, 1/100⟩, ⟨0, 1/100⟩], ⟨1/100, 1/100⟩, 9/10, "hold"⟩,
      ?_, ?_⟩
    · norm_num [assembleOne, pct, round2, round3, round_eq, Option.some.injEq,
        Hold.mk.injEq, Point.mk.injEq]
    · norm_num
  · refine ⟨⟨[⟨0, 0⟩, ⟨0, 0⟩, ⟨1/100, 1/100⟩], ⟨0, 0⟩, 9/10, "hold"⟩, ?_, ?_⟩
    · norm_num [assembleOne, pct, round2, round3, round_eq, Option.some.injEq,
        Hold.mk.injEq, Point.mk.injEq]
    · norm_num [pct, round2, round_eq]

/-- Witness for C9 on a concrete one-point polygon detection. -/
theorem claim_C9_witness :
    (⟨[⟨10, 10⟩], ⟨10, 10⟩, 9 / 10, "hold"⟩ : Hold).centerPt.x =
      round2 ((([⟨10, 10⟩] : List Point).map fun p => round2 (pct p.x 100)).sum /
        ([⟨10, 10⟩] : List Point).length) ∧
    (⟨[⟨10, 10⟩], ⟨10, 10⟩, 9 / 10, "hold"⟩ : Hold).centerPt.y =
      round2 ((([⟨10, 10⟩] : List Point).map fun p => round2 (pct p.y 100)).sum /
        ([⟨10, 10⟩] : List Point).length) :=
  (claim_C9_center_paths 100 100 (1 / 2) ⟨some [⟨10, 10⟩], 0, 0, 0, 0, 9 / 10, "hold"⟩).1
    [⟨10, 10⟩] ⟨[⟨10, 10⟩], ⟨10, 10⟩, 9 / 10, "hold"⟩ rfl
    (by norm_num [assembleOne, pct, round2, round3, round_eq, Option.some.injEq,
      Hold.mk.injEq, Point.mk.injEq])

end DetectHolds
